import Mathlib

/-!
Verification of the interaction/AI core of a pygame chess GUI
(files chess_gui.py and chess_gui_sound.py).

The chess rules engine is an external collaborator (the python-chess
library); following the specification it is modelled as an abstract
oracle, a structure of operations over an opaque board type.  All
functions of the repository that the claims mention are embedded as
Lean functions parametrised by such an oracle, translated line by line
from the Python source.

Conventions taken from python-chess:
  chess.WHITE = True, chess.BLACK = False,
  chess.square file rank = 8 * rank + file,
  chess.square_rank sq = sq / 8.
-/

namespace Chess

/-- Piece kinds, as in the python-chess library. -/
inductive PieceType where
  | pawn
  | knight
  | bishop
  | rook
  | queen
  | king
deriving DecidableEq, Repr

/-- A piece: kind plus colour (true = white, false = black). -/
structure Piece where
  ptype : PieceType
  color : Bool
deriving DecidableEq, Repr

/-- A move as constructed by the GUI code: origin square, destination
square, optional promotion piece kind (chess.Move). -/
structure Move where
  from_square : Nat
  to_square : Nat
  promotion : Option PieceType
deriving DecidableEq, Repr

/-- The Rules Oracle: the operations of the external chess library that
the two GUI files use on a board of opaque type B.  Move application
and undo are functional (push returns the mutated board, pop returns
the board with the last move undone). -/
structure Oracle (B : Type) where
  piece_at : B → Nat → Option Piece
  turn : B → Bool
  legal_moves : B → List Move
  push : B → Move → B
  pop : B → B
  is_capture : B → Move → Bool
  is_check : B → Bool
  is_game_over : B → Bool
  reset : B → B

/-- AI_PLAYER = chess.BLACK. -/
def AI_PLAYER : Bool := false

/-- PIECE_VALUES: material value of each piece kind. -/
def PIECE_VALUES : PieceType → Int
  | PieceType.pawn => 1
  | PieceType.knight => 3
  | PieceType.bishop => 3
  | PieceType.rook => 5
  | PieceType.queen => 9
  | PieceType.king => 0

/-- The signed material contribution of one square: +value for a white
piece, -value for a black piece, 0 for an empty square. -/
def squareScore {B : Type} (o : Oracle B) (b : B) (sq : Nat) : Int :=
  match o.piece_at b sq with
  | some p => if p.color then PIECE_VALUES p.ptype else -PIECE_VALUES p.ptype
  | none => 0

/-- evaluate_board of chess_gui.py: iterate over chess.SQUARES
(0..63), adding the piece value for white pieces and subtracting it
for black ones. -/
def evaluate_board {B : Type} (o : Oracle B) (b : B) : Int :=
  (List.range 64).foldl
    (fun score sq =>
      match o.piece_at b sq with
      | some p =>
        if p.color then score + PIECE_VALUES p.ptype else score - PIECE_VALUES p.ptype
      | none => score)
    0

lemma evaluate_board_foldl {B : Type} (o : Oracle B) (b : B) :
    ∀ (l : List Nat) (init : Int),
      l.foldl
        (fun score sq =>
          match o.piece_at b sq with
          | some p =>
            if p.color then score + PIECE_VALUES p.ptype else score - PIECE_VALUES p.ptype
          | none => score)
        init = init + (l.map (squareScore o b)).sum := by
  intro l
  induction l with
  | nil => intro init; simp
  | cons x xs ih =>
    intro init
    simp only [List.foldl_cons, List.map_cons, List.sum_cons, ih]
    unfold squareScore
    cases o.piece_at b x with
    | none => simp
    | some p =>
      cases hc : p.color <;> simp [hc] <;> ring

lemma evaluate_board_eq_sum_list {B : Type} (o : Oracle B) (b : B) :
    evaluate_board o b = ((List.range 64).map (squareScore o b)).sum := by
  unfold evaluate_board
  rw [evaluate_board_foldl]
  simp

lemma sum_range_eq_list_sum (f : Nat → Int) :
    ∀ n : Nat, ∑ s ∈ Finset.range n, f s = ((List.range n).map f).sum := by
  intro n
  induction n with
  | zero => simp
  | succ k ih => rw [Finset.sum_range_succ, List.range_succ]; simp [ih]

/-- C8: evaluate_board equals the sum over all 64 squares of the
piece's material value (pawn 1, knight 3, bishop 3, rook 5, queen 9,
king 0), signed +1 for white and -1 for black, and it depends only on
the piece placement: two boards whose piece_at maps agree on squares
0..63 evaluate to the same score. -/
theorem evaluate_board_material_sum {B : Type} (o : Oracle B) (b : B) :
    evaluate_board o b =
      ∑ sq ∈ Finset.range 64,
        (match o.piece_at b sq with
         | some p => (if p.color then (1 : Int) else -1) * PIECE_VALUES p.ptype
         | none => 0) ∧
    ∀ b2 : B, (∀ sq, sq < 64 → o.piece_at b sq = o.piece_at b2 sq) →
      evaluate_board o b = evaluate_board o b2 := by
  constructor
  · rw [evaluate_board_eq_sum_list, sum_range_eq_list_sum]
    congr 1
    apply List.map_congr_left
    intro sq _
    unfold squareScore
    cases o.piece_at b sq with
    | none => simp
    | some p => cases p.color <;> simp
  · intro b2 hag
    rw [evaluate_board_eq_sum_list, evaluate_board_eq_sum_list]
    congr 1
    apply List.map_congr_left
    intro sq hsq
    unfold squareScore
    rw [hag sq (List.mem_range.mp hsq)]

/-- The test evaluation > max_eval of find_best_move, where max_eval
starts at -float inf; none stands for that initial -infinity. -/
def maxImproved (ev : Int) : Option Int → Bool
  | none => true
  | some v => decide (v < ev)

/-- The test evaluation < min_eval of find_best_move, where min_eval
starts at +float inf; none stands for that initial +infinity. -/
def minImproved (ev : Int) : Option Int → Bool
  | none => true
  | some v => decide (ev < v)

/-- The maximizing loop of find_best_move (AI is White): for each move
in order, push it, evaluate the position, pop it, and record the move
when the evaluation strictly exceeds the running maximum. -/
def fbmMaxLoop {B : Type} (o : Oracle B) :
    B → Option Move → Option Int → List Move → B × Option Move × Option Int
  | b, best, maxEval, [] => (b, best, maxEval)
  | b, best, maxEval, a :: rest =>
    if maxImproved (evaluate_board o (o.push b a)) maxEval then
      fbmMaxLoop o (o.pop (o.push b a)) (some a)
        (some (evaluate_board o (o.push b a))) rest
    else
      fbmMaxLoop o (o.pop (o.push b a)) best maxEval rest

/-- The minimizing loop of find_best_move (AI is Black): record the
move when the evaluation is strictly below the running minimum. -/
def fbmMinLoop {B : Type} (o : Oracle B) :
    B → Option Move → Option Int → List Move → B × Option Move × Option Int
  | b, best, minEval, [] => (b, best, minEval)
  | b, best, minEval, a :: rest =>
    if minImproved (evaluate_board o (o.push b a)) minEval then
      fbmMinLoop o (o.pop (o.push b a)) (some a)
        (some (evaluate_board o (o.push b a))) rest
    else
      fbmMinLoop o (o.pop (o.push b a)) best minEval rest

/-- random.choice l: an arbitrary element of l, determined here by an
index parameter k; on an empty list it is none, standing for the
IndexError that random.choice raises. -/
def random_choice (k : Nat) (l : List Move) : Option Move :=
  l.get? (k % l.length)

/-- find_best_move of chess_gui.py, with the shuffled enumeration of
the legal moves and the randomness of the final random.choice fallback
supplied as parameters.  Returns the board as left by the loop
together with the selected move; none stands for the exception raised
by random.choice on an empty list. -/
def find_best_move {B : Type} (o : Oracle B) (b : B) (shuffled : List Move)
    (k : Nat) : B × Option Move :=
  if o.turn b = true then
    ((fbmMaxLoop o b none none shuffled).1,
      match (fbmMaxLoop o b none none shuffled).2.1 with
      | some m => some m
      | none => random_choice k shuffled)
  else
    ((fbmMinLoop o b none none shuffled).1,
      match (fbmMinLoop o b none none shuffled).2.1 with
      | some m => some m
      | none => random_choice k shuffled)

/-- Pure first-strict-improvement scan: the accumulator holds the
current best move with its value; an element replaces it exactly when
its value is strictly better. -/
def scanBest (f : Move → Int) : Option (Move × Int) → List Move → Option (Move × Int)
  | acc, [] => acc
  | acc, a :: rest =>
    if maxImproved (f a) (acc.map Prod.snd) then
      scanBest f (some (a, f a)) rest
    else
      scanBest f acc rest

lemma fbmMaxLoop_eq_scanBest {B : Type} (o : Oracle B) (b : B) :
    ∀ (moves : List Move), (∀ m ∈ moves, o.pop (o.push b m) = b) →
    ∀ acc : Option (Move × Int),
      fbmMaxLoop o b (acc.map Prod.fst) (acc.map Prod.snd) moves =
        (b, (scanBest (fun m => evaluate_board o (o.push b m)) acc moves).map Prod.fst,
            (scanBest (fun m => evaluate_board o (o.push b m)) acc moves).map Prod.snd) := by
  intro moves
  induction moves with
  | nil => intro _ acc; rfl
  | cons a rest ih =>
    intro h acc
    have hpop : o.pop (o.push b a) = b := h a (List.mem_cons_self a rest)
    have hrest : ∀ x ∈ rest, o.pop (o.push b x) = b :=
      fun x hx => h x (List.mem_cons_of_mem a hx)
    simp only [fbmMaxLoop, scanBest, hpop]
    by_cases hc : maxImproved (evaluate_board o (o.push b a)) (acc.map Prod.snd) = true
    · rw [if_pos hc, if_pos hc]
      exact ih hrest (some (a, evaluate_board o (o.push b a)))
    · rw [if_neg hc, if_neg hc]
      exact ih hrest acc

lemma minImproved_neg (ev : Int) (acc : Option (Move × Int)) :
    minImproved ev (acc.map Prod.snd |>.map Neg.neg) = maxImproved (-ev) (acc.map Prod.snd) := by
  cases acc with
  | none => rfl
  | some p =>
    simp only [Option.map_some', minImproved, maxImproved]
    rw [decide_eq_decide]
    omega

lemma fbmMinLoop_eq_scanBest {B : Type} (o : Oracle B) (b : B) :
    ∀ (moves : List Move), (∀ m ∈ moves, o.pop (o.push b m) = b) →
    ∀ acc : Option (Move × Int),
      fbmMinLoop o b (acc.map Prod.fst) (acc.map Prod.snd |>.map Neg.neg) moves =
        (b, (scanBest (fun m => -evaluate_board o (o.push b m)) acc moves).map Prod.fst,
            ((scanBest (fun m => -evaluate_board o (o.push b m)) acc moves).map Prod.snd).map Neg.neg) := by
  intro moves
  induction moves with
  | nil => intro _ acc; rfl
  | cons a rest ih =>
    intro h acc
    have hpop : o.pop (o.push b a) = b := h a (List.mem_cons_self a rest)
    have hrest : ∀ x ∈ rest, o.pop (o.push b x) = b :=
      fun x hx => h x (List.mem_cons_of_mem a hx)
    simp only [fbmMinLoop, scanBest, hpop, minImproved_neg]
    by_cases hc : maxImproved (-evaluate_board o (o.push b a)) (acc.map Prod.snd) = true
    · rw [if_pos hc, if_pos hc]
      have := ih hrest (some (a, -evaluate_board o (o.push b a)))
      simpa using this
    · rw [if_neg hc, if_neg hc]
      exact ih hrest acc

lemma scanBest_some_isSome (f : Move → Int) :
    ∀ (moves : List Move) (p : Move × Int), (scanBest f (some p) moves).isSome := by
  intro moves
  induction moves with
  | nil => intro p; rfl
  | cons a rest ih =>
    intro p
    simp only [scanBest]
    by_cases hc : maxImproved (f a) ((some p).map Prod.snd) = true
    · rw [if_pos hc]; exact ih (a, f a)
    · rw [if_neg hc]; exact ih p

lemma scanBest_some_char (f : Move → Int) :
    ∀ (moves : List Move) (m0 : Move) (v0 : Int) (m : Move) (v : Int),
      scanBest f (some (m0, v0)) moves = some (m, v) →
      ((m = m0 ∧ v = v0) ∧ ∀ x ∈ moves, f x ≤ v0) ∨
      (∃ l1 l2, moves = l1 ++ m :: l2 ∧ v = f m ∧ v0 < f m ∧
        (∀ x ∈ l1, f x < f m) ∧ (∀ x ∈ l2, f x ≤ f m)) := by
  intro moves
  induction moves with
  | nil =>
    intro m0 v0 m v hscan
    left
    simp only [scanBest] at hscan
    injection hscan with h1
    injection h1 with h1 h2
    exact ⟨⟨h1.symm, h2.symm⟩, by intro x hx; cases hx⟩
  | cons a rest ih =>
    intro m0 v0 m v hscan
    simp only [scanBest, maxImproved, Option.map_some', decide_eq_true_eq] at hscan
    by_cases hc : v0 < f a
    · rw [if_pos hc] at hscan
      rcases ih a (f a) m v hscan with ⟨⟨hm, hv⟩, hall⟩ | ⟨l1, l2, hdec, hv, hlt, h1, h2⟩
      · right
        refine ⟨[], rest, ?_, ?_, ?_, ?_, ?_⟩
        · rw [hm]; rfl
        · rw [hv, hm]
        · rw [hm]; exact hc
        · intro x hx; cases hx
        · intro x hx; rw [hm]; exact hall x hx
      · right
        refine ⟨a :: l1, l2, ?_, hv, ?_, ?_, h2⟩
        · rw [hdec, List.cons_append]
        · exact lt_trans hc hlt
        · intro x hx
          rcases List.mem_cons.mp hx with hx | hx
          · rw [hx]; exact hlt
          · exact h1 x hx
    · rw [if_neg hc] at hscan
      rcases ih m0 v0 m v hscan with ⟨hmv, hall⟩ | ⟨l1, l2, hdec, hv, hgt, h1, h2⟩
      · left
        refine ⟨hmv, ?_⟩
        intro x hx
        rcases List.mem_cons.mp hx with hx | hx
        · rw [hx]; exact le_of_not_lt hc
        · exact hall x hx
      · right
        refine ⟨a :: l1, l2, by rw [hdec, List.cons_append], hv, hgt, ?_, h2⟩
        intro x hx
        rcases List.mem_cons.mp hx with hx | hx
        · rw [hx]; exact lt_of_le_of_lt (le_of_not_lt hc) hgt
        · exact h1 x hx

lemma scanBest_first_argmax (f : Move → Int) (moves : List Move) (hne : moves ≠ []) :
    ∃ m l1 l2, scanBest f none moves = some (m, f m) ∧ moves = l1 ++ m :: l2 ∧
      (∀ x ∈ l1, f x < f m) ∧ (∀ x ∈ l2, f x ≤ f m) := by
  cases moves with
  | nil => exact absurd rfl hne
  | cons a rest =>
    have hstep : scanBest f none (a :: rest) = scanBest f (some (a, f a)) rest := rfl
    have hsome := scanBest_some_isSome f rest (a, f a)
    rcases Option.isSome_iff_exists.mp hsome with ⟨⟨m, v⟩, hmv⟩
    rcases scanBest_some_char f rest a (f a) m v hmv with ⟨⟨hm, hv⟩, hall⟩ | ⟨l1, l2, hdec, hv, hgt, h1, h2⟩
    · refine ⟨a, [], rest, ?_, rfl, ?_, ?_⟩
      · rw [hstep, hmv, hm, hv]
      · intro x hx; cases hx
      · intro x hx; exact hall x hx
    · refine ⟨m, a :: l1, l2, ?_, by rw [hdec, List.cons_append], ?_, h2⟩
      · rw [hstep, hmv, hv]
      · intro x hx
        rcases List.mem_cons.mp hx with hx | hx
        · rw [hx]; exact hgt
        · exact h1 x hx

/-- C1: on a board with at least one legal move, find_best_move (run
on any shuffled enumeration of the moves) returns the move whose
post-move evaluation is most favourable to the side to move —
maximizing evaluate_board when white is to move, minimizing it when
black is to move — and among equal-valued moves it returns the first
one of the shuffled order, because the comparison is strict. -/
theorem find_best_move_greedy {B : Type} (o : Oracle B) (b : B)
    (shuffled : List Move) (k : Nat)
    (hne : shuffled ≠ [])
    (hpop : ∀ m ∈ shuffled, o.pop (o.push b m) = b) :
    ∃ m l1 l2, (find_best_move o b shuffled k).2 = some m ∧
      shuffled = l1 ++ m :: l2 ∧
      (if o.turn b = true then
        (∀ x ∈ l1, evaluate_board o (o.push b x) < evaluate_board o (o.push b m)) ∧
        (∀ x ∈ l2, evaluate_board o (o.push b x) ≤ evaluate_board o (o.push b m))
      else
        (∀ x ∈ l1, evaluate_board o (o.push b m) < evaluate_board o (o.push b x)) ∧
        (∀ x ∈ l2, evaluate_board o (o.push b m) ≤ evaluate_board o (o.push b x))) := by
  by_cases ht : o.turn b = true
  · rcases scanBest_first_argmax (fun m => evaluate_board o (o.push b m)) shuffled hne with
      ⟨m, l1, l2, hscan, hdec, h1, h2⟩
    refine ⟨m, l1, l2, ?_, hdec, ?_⟩
    · have h3 : fbmMaxLoop o b none none shuffled =
          (b, some m, some (evaluate_board o (o.push b m))) := by
        have h4 := fbmMaxLoop_eq_scanBest o b shuffled hpop none
        rw [hscan] at h4
        exact h4
      unfold find_best_move
      rw [if_pos ht, h3]
    · rw [if_pos ht]
      exact ⟨h1, h2⟩
  · rcases scanBest_first_argmax (fun m => -evaluate_board o (o.push b m)) shuffled hne with
      ⟨m, l1, l2, hscan, hdec, h1, h2⟩
    refine ⟨m, l1, l2, ?_, hdec, ?_⟩
    · have h3 : fbmMinLoop o b none none shuffled =
          (b, some m, some (evaluate_board o (o.push b m))) := by
        have h4 := fbmMinLoop_eq_scanBest o b shuffled hpop none
        rw [hscan] at h4
        simpa using h4
      unfold find_best_move
      rw [if_neg ht, h3]
    · rw [if_neg ht]
      constructor
      · intro x hx
        have := h1 x hx
        omega
      · intro x hx
        have := h2 x hx
        omega

lemma fbmMaxLoop_best_mem {B : Type} (o : Oracle B) :
    ∀ (moves : List Move) (b : B) (best : Option Move) (me : Option Int) (m : Move),
      (fbmMaxLoop o b best me moves).2.1 = some m → best = some m ∨ m ∈ moves := by
  intro moves
  induction moves with
  | nil => intro b best me m h; left; exact h
  | cons a rest ih =>
    intro b best me m h
    simp only [fbmMaxLoop] at h
    split at h
    · rcases ih _ _ _ m h with h1 | h1
      · right; injection h1 with h1; rw [h1]; exact List.mem_cons_self m rest
      · right; exact List.mem_cons_of_mem a h1
    · rcases ih _ _ _ m h with h1 | h1
      · left; exact h1
      · right; exact List.mem_cons_of_mem a h1

lemma fbmMinLoop_best_mem {B : Type} (o : Oracle B) :
    ∀ (moves : List Move) (b : B) (best : Option Move) (me : Option Int) (m : Move),
      (fbmMinLoop o b best me moves).2.1 = some m → best = some m ∨ m ∈ moves := by
  intro moves
  induction moves with
  | nil => intro b best me m h; left; exact h
  | cons a rest ih =>
    intro b best me m h
    simp only [fbmMinLoop] at h
    split at h
    · rcases ih _ _ _ m h with h1 | h1
      · right; injection h1 with h1; rw [h1]; exact List.mem_cons_self m rest
      · right; exact List.mem_cons_of_mem a h1
    · rcases ih _ _ _ m h with h1 | h1
      · left; exact h1
      · right; exact List.mem_cons_of_mem a h1

lemma fbmMaxLoop_isSome {B : Type} (o : Oracle B) :
    ∀ (moves : List Move) (b : B) (p : Move) (me : Option Int),
      ((fbmMaxLoop o b (some p) me moves).2.1).isSome := by
  intro moves
  induction moves with
  | nil => intro b p me; rfl
  | cons a rest ih =>
    intro b p me
    simp only [fbmMaxLoop]
    split
    · exact ih _ a _
    · exact ih _ p _

lemma fbmMinLoop_isSome {B : Type} (o : Oracle B) :
    ∀ (moves : List Move) (b : B) (p : Move) (me : Option Int),
      ((fbmMinLoop o b (some p) me moves).2.1).isSome := by
  intro moves
  induction moves with
  | nil => intro b p me; rfl
  | cons a rest ih =>
    intro b p me
    simp only [fbmMinLoop]
    split
    · exact ih _ a _
    · exact ih _ p _

/-- C2: when the legal-move set is non-empty, the move returned by
find_best_move is a member of it (covering the random fallback path as
well); with zero legal moves, find_best_move signals an error (the
IndexError of random.choice, modelled as none) rather than returning a
sentinel move. -/
theorem find_best_move_in_legal_moves {B : Type} (o : Oracle B) (b : B)
    (shuffled : List Move) (k : Nat)
    (hperm : shuffled.Perm (o.legal_moves b)) :
    (o.legal_moves b ≠ [] →
      ∃ m, (find_best_move o b shuffled k).2 = some m ∧ m ∈ o.legal_moves b) ∧
    (o.legal_moves b = [] → (find_best_move o b shuffled k).2 = none) := by
  constructor
  · intro hne
    have hsne : shuffled ≠ [] := by
      intro hc
      rw [hc] at hperm
      exact hne (List.Perm.nil_eq hperm).symm
    by_cases ht : o.turn b = true
    · have hsome : ((fbmMaxLoop o b none none shuffled).2.1).isSome = true := by
        cases hs : shuffled with
        | nil => exact absurd hs hsne
        | cons a rest =>
          have : fbmMaxLoop o b none none (a :: rest) =
              fbmMaxLoop o (o.pop (o.push b a)) (some a)
                (some (evaluate_board o (o.push b a))) rest := rfl
          rw [this]
          exact fbmMaxLoop_isSome o rest _ a _
      rcases Option.isSome_iff_exists.mp hsome with ⟨m, hm⟩
      refine ⟨m, ?_, ?_⟩
      · unfold find_best_move
        rw [if_pos ht, hm]
      · rcases fbmMaxLoop_best_mem o shuffled b none none m hm with h1 | h1
        · cases h1
        · exact hperm.mem_iff.mp h1
    · have hsome : ((fbmMinLoop o b none none shuffled).2.1).isSome = true := by
        cases hs : shuffled with
        | nil => exact absurd hs hsne
        | cons a rest =>
          have : fbmMinLoop o b none none (a :: rest) =
              fbmMinLoop o (o.pop (o.push b a)) (some a)
                (some (evaluate_board o (o.push b a))) rest := rfl
          rw [this]
          exact fbmMinLoop_isSome o rest _ a _
      rcases Option.isSome_iff_exists.mp hsome with ⟨m, hm⟩
      refine ⟨m, ?_, ?_⟩
      · unfold find_best_move
        rw [if_neg ht, hm]
      · rcases fbmMinLoop_best_mem o shuffled b none none m hm with h1 | h1
        · cases h1
        · exact hperm.mem_iff.mp h1
  · intro hz
    rw [hz] at hperm
    have hs : shuffled = [] := List.Perm.eq_nil hperm
    subst hs
    unfold find_best_move
    by_cases ht : o.turn b = true
    · rw [if_pos ht]; rfl
    · rw [if_neg ht]; rfl

lemma fbmMaxLoop_board {B : Type} (o : Oracle B) :
    ∀ (moves : List Move) (b : B), (∀ m ∈ moves, o.pop (o.push b m) = b) →
      ∀ (best : Option Move) (me : Option Int),
        (fbmMaxLoop o b best me moves).1 = b := by
  intro moves
  induction moves with
  | nil => intro b _ best me; rfl
  | cons a rest ih =>
    intro b h best me
    have hpop : o.pop (o.push b a) = b := h a (List.mem_cons_self a rest)
    have hrest : ∀ x ∈ rest, o.pop (o.push b x) = b :=
      fun x hx => h x (List.mem_cons_of_mem a hx)
    simp only [fbmMaxLoop, hpop]
    split
    · exact ih b hrest _ _
    · exact ih b hrest _ _

lemma fbmMinLoop_board {B : Type} (o : Oracle B) :
    ∀ (moves : List Move) (b : B), (∀ m ∈ moves, o.pop (o.push b m) = b) →
      ∀ (best : Option Move) (me : Option Int),
        (fbmMinLoop o b best me moves).1 = b := by
  intro moves
  induction moves with
  | nil => intro b _ best me; rfl
  | cons a rest ih =>
    intro b h best me
    have hpop : o.pop (o.push b a) = b := h a (List.mem_cons_self a rest)
    have hrest : ∀ x ∈ rest, o.pop (o.push b x) = b :=
      fun x hx => h x (List.mem_cons_of_mem a hx)
    simp only [fbmMinLoop, hpop]
    split
    · exact ih b hrest _ _
    · exact ih b hrest _ _

/-- C3: find_best_move leaves the board unchanged — each push is
undone by the matching pop — so the resulting board, its piece
placement and its legal-move set equal those before the call. -/
theorem find_best_move_preserves_board {B : Type} (o : Oracle B) (b : B)
    (shuffled : List Move) (k : Nat)
    (hpop : ∀ m ∈ shuffled, o.pop (o.push b m) = b) :
    (find_best_move o b shuffled k).1 = b ∧
    (∀ sq, o.piece_at (find_best_move o b shuffled k).1 sq = o.piece_at b sq) ∧
    o.legal_moves (find_best_move o b shuffled k).1 = o.legal_moves b := by
  have hb : (find_best_move o b shuffled k).1 = b := by
    unfold find_best_move
    by_cases ht : o.turn b = true
    · rw [if_pos ht]
      exact fbmMaxLoop_board o shuffled b hpop none none
    · rw [if_neg ht]
      exact fbmMinLoop_board o shuffled b hpop none none
  exact ⟨hb, fun sq => by rw [hb], by rw [hb]⟩

/-- The three sound categories signalled for an applied move. -/
inductive Sound where
  | check
  | capture
  | quiet
deriving DecidableEq, Repr

/-- chess.square file rank. -/
def square (file rank : Nat) : Nat := 8 * rank + file

/-- chess.square_rank. -/
def square_rank (sq : Nat) : Nat := sq / 8

/-- Sound classification shared by every move application: is_capture
is queried on the board before the move is applied, the move is
applied, and the checking move takes priority over the capture, which
takes priority over the quiet move. -/
def classifySound {B : Type} (o : Oracle B) (b : B) (mv : Move) : Sound :=
  if o.is_check (o.push b mv) then Sound.check
  else if o.is_capture b mv then Sound.capture
  else Sound.quiet

/-- GUI state of chess_gui.py: the board, the selected square, the
cached legal moves from that square, and the flag recording that an
automated move is pending (ai_is_thinking / the spawned thread). -/
structure GStateA (B : Type) where
  board : B
  selected_square : Option Nat
  legal_moves : List Move
  ai_is_thinking : Bool

/-- GUI state of chess_gui_sound.py: no automated player. -/
structure GStateS (B : Type) where
  board : B
  selected_square : Option Nat
  legal_moves : List Move

/-- Pixel-to-column map of chess_gui.py: board origin (40, 40), square
size 90 (Python floor division). -/
def colA (pos : Int × Int) : Int := (pos.1 - 40).fdiv 90

def rowA (pos : Int × Int) : Int := (pos.2 - 40).fdiv 90

def inBoundsA (pos : Int × Int) : Prop :=
  0 ≤ colA pos ∧ colA pos < 8 ∧ 0 ≤ rowA pos ∧ rowA pos < 8

instance (pos : Int × Int) : Decidable (inBoundsA pos) := by
  unfold inBoundsA; infer_instance

/-- square_index = chess.square(col, 7 - row) in chess_gui.py. -/
def squareOfA (pos : Int × Int) : Nat := square (colA pos).toNat (7 - (rowA pos).toNat)

/-- Pixel-to-column map of chess_gui_sound.py: board origin (80, 80),
square size 80. -/
def colS (pos : Int × Int) : Int := (pos.1 - 80).fdiv 80

def rowS (pos : Int × Int) : Int := (pos.2 - 80).fdiv 80

def inBoundsS (pos : Int × Int) : Prop :=
  0 ≤ colS pos ∧ colS pos < 8 ∧ 0 ≤ rowS pos ∧ rowS pos < 8

instance (pos : Int × Int) : Decidable (inBoundsS pos) := by
  unfold inBoundsS; infer_instance

def squareOfS (pos : Int × Int) : Nat := square (colS pos).toNat (7 - (rowS pos).toNat)

/-- The candidate move built by chess_gui.py from a click while a piece
is selected: promotion is set to queen when the selected piece is a
pawn and the destination rank is 0 or 7 (either back rank, whatever
the pawn's colour). -/
def moveForClickA (p : Piece) (sel sq : Nat) : Move :=
  { from_square := sel, to_square := sq,
    promotion :=
      if p.ptype = PieceType.pawn ∧ (square_rank sq = 0 ∨ square_rank sq = 7) then
        some PieceType.queen
      else none }

/-- The candidate move built by chess_gui_sound.py: promotion is set to
queen when the selected piece is a pawn and either the destination
rank is 7 with white to move or the destination rank is 0 with black
to move. -/
def moveForClickS (p : Piece) (turn : Bool) (sel sq : Nat) : Move :=
  { from_square := sel, to_square := sq,
    promotion :=
      if p.ptype = PieceType.pawn ∧
          ((square_rank sq = 7 ∧ turn = true) ∨ (square_rank sq = 0 ∧ turn = false)) then
        some PieceType.queen
      else none }

/-- Clearing the selection: selected_square = None, legal_moves = []. -/
def clearSelA {B : Type} (g : GStateA B) : GStateA B :=
  { g with selected_square := none, legal_moves := [] }

/-- Selecting a square: the cached legal moves are recomputed fresh as
the legal moves of the current board whose origin is that square. -/
def selectA {B : Type} (o : Oracle B) (g : GStateA B) (sq : Nat) : GStateA B :=
  { g with
      selected_square := some sq,
      legal_moves := (o.legal_moves g.board).filter (fun m => decide (m.from_square = sq)) }

/-- The state after chess_gui.py applies a move from a click: the move
is pushed, the selection is cleared, and the AI thread is spawned
exactly when the resulting position is not terminal. -/
def applyStateA {B : Type} (o : Oracle B) (g : GStateA B) (mv : Move) : GStateA B :=
  { board := o.push g.board mv, selected_square := none, legal_moves := [],
    ai_is_thinking := !(o.is_game_over (o.push g.board mv)) }

/-- The branch of handle_click (chess_gui.py) taken when a square is
already selected, given the clicked square.  none models the
AttributeError raised by dereferencing piece_at of an empty selected
square. -/
def clickSelectedA {B : Type} (o : Oracle B) (g : GStateA B) (sel sq : Nat) :
    Option (GStateA B × Option Sound) :=
  match o.piece_at g.board sel with
  | none => none
  | some p =>
    if moveForClickA p sel sq ∈ o.legal_moves g.board then
      some (applyStateA o g (moveForClickA p sel sq),
            some (classifySound o g.board (moveForClickA p sel sq)))
    else
      match o.piece_at g.board sq with
      | some q =>
        if q.color = o.turn g.board then
          some (selectA o g sq, none)
        else
          some (clearSelA g, none)
      | none =>
        some (clearSelA g, none)

/-- The branch of handle_click (chess_gui.py) taken with no selection. -/
def clickIdleA {B : Type} (o : Oracle B) (g : GStateA B) (sq : Nat) : GStateA B :=
  match o.piece_at g.board sq with
  | some p =>
    if p.color = o.turn g.board then selectA o g sq else g
  | none => g

/-- The early-return guard of handle_click in chess_gui.py. -/
def guardA {B : Type} (o : Oracle B) (g : GStateA B) : Prop :=
  o.turn g.board = AI_PLAYER ∨ o.is_game_over g.board = true ∨ g.ai_is_thinking = true

instance {B : Type} (o : Oracle B) (g : GStateA B) : Decidable (guardA o g) := by
  unfold guardA; infer_instance

/-- handle_click of chess_gui.py.  Returns the new state and the sound
played, if any; none models an uncaught exception. -/
def handle_clickA {B : Type} (o : Oracle B) (g : GStateA B) (pos : Int × Int) :
    Option (GStateA B × Option Sound) :=
  if guardA o g then
    some (g, none)
  else if ¬inBoundsA pos then
    some (clearSelA g, none)
  else
    match g.selected_square with
    | some sel => clickSelectedA o g sel (squareOfA pos)
    | none => some (clickIdleA o g (squareOfA pos), none)

/-- make_ai_move of chess_gui.py (the body of the AI thread, after the
think delay): compute find_best_move, then apply it with the sound
classification.  none models the uncaught IndexError when there is no
legal move. -/
def make_ai_move {B : Type} (o : Oracle B) (b : B) (shuffled : List Move) (k : Nat) :
    Option (B × Sound) :=
  match find_best_move o b shuffled k with
  | (b1, some m) => some (o.push b1 m, classifySound o b1 m)
  | (_, none) => none

/-- Completion of the spawned AI thread as observed by the main loop:
the board is replaced by the result of make_ai_move and the thinking
flag is cleared. -/
def aiStep {B : Type} (o : Oracle B) (g : GStateA B) (shuffled : List Move) (k : Nat) :
    Option (GStateA B × Sound) :=
  match make_ai_move o g.board shuffled k with
  | some (b2, snd) => some ({ g with board := b2, ai_is_thinking := false }, snd)
  | none => none

/-- The states of chess_gui.py reachable by its run loop: from a fresh
state, mouse clicks (handle_click), completions of a spawned AI
thread, and the R-key reset offered once the game is over. -/
inductive ReachA {B : Type} (o : Oracle B) : GStateA B → Prop where
  | init (b : B) :
      ReachA o { board := b, selected_square := none, legal_moves := [], ai_is_thinking := false }
  | click (g : GStateA B) (pos : Int × Int) (g2 : GStateA B) (snd : Option Sound) :
      ReachA o g → handle_clickA o g pos = some (g2, snd) → ReachA o g2
  | ai (g : GStateA B) (shuffled : List Move) (k : Nat) (g2 : GStateA B) (snd : Sound) :
      ReachA o g → g.ai_is_thinking = true → aiStep o g shuffled k = some (g2, snd) →
      ReachA o g2
  | reset (g : GStateA B) :
      ReachA o g → o.is_game_over g.board = true →
      ReachA o { board := o.reset g.board, selected_square := none, legal_moves := [],
                 ai_is_thinking := false }

/-- The state invariant of chess_gui.py: a selected square always
holds a piece of the side to move; the cached legal moves are empty
without a selection and are exactly the legal moves from the selected
square otherwise; and while an automated move is pending the selection
is clear and the game is not over. -/
def InvA {B : Type} (o : Oracle B) (g : GStateA B) : Prop :=
  (∀ sel, g.selected_square = some sel →
    ∃ p, o.piece_at g.board sel = some p ∧ p.color = o.turn g.board) ∧
  (g.selected_square = none → g.legal_moves = []) ∧
  (∀ sel, g.selected_square = some sel →
    g.legal_moves = (o.legal_moves g.board).filter (fun m => decide (m.from_square = sel))) ∧
  (g.ai_is_thinking = true → g.selected_square = none ∧ o.is_game_over g.board = false)

/-- Clearing the selection in chess_gui_sound.py. -/
def clearSelS {B : Type} (g : GStateS B) : GStateS B :=
  { g with selected_square := none, legal_moves := [] }

/-- Selecting a square in chess_gui_sound.py. -/
def selectS {B : Type} (o : Oracle B) (g : GStateS B) (sq : Nat) : GStateS B :=
  { g with
      selected_square := some sq,
      legal_moves := (o.legal_moves g.board).filter (fun m => decide (m.from_square = sq)) }

/-- The state after chess_gui_sound.py applies a move from a click. -/
def applyStateS {B : Type} (o : Oracle B) (g : GStateS B) (mv : Move) : GStateS B :=
  { board := o.push g.board mv, selected_square := none, legal_moves := [] }

/-- The branch of handle_click (chess_gui_sound.py) taken when a
square is already selected. -/
def clickSelectedS {B : Type} (o : Oracle B) (g : GStateS B) (sel sq : Nat) :
    Option (GStateS B × Option Sound) :=
  match o.piece_at g.board sel with
  | none => none
  | some p =>
    if moveForClickS p (o.turn g.board) sel sq ∈ o.legal_moves g.board then
      some (applyStateS o g (moveForClickS p (o.turn g.board) sel sq),
            some (classifySound o g.board (moveForClickS p (o.turn g.board) sel sq)))
    else
      match o.piece_at g.board sq with
      | some q =>
        if q.color = o.turn g.board then
          some (selectS o g sq, none)
        else
          some (clearSelS g, none)
      | none =>
        some (clearSelS g, none)

/-- The branch of handle_click (chess_gui_sound.py) with no selection. -/
def clickIdleS {B : Type} (o : Oracle B) (g : GStateS B) (sq : Nat) : GStateS B :=
  match o.piece_at g.board sq with
  | some p =>
    if p.color = o.turn g.board then selectS o g sq else g
  | none => g

/-- handle_click of chess_gui_sound.py: no turn gating and no game-over
gating inside the handler itself. -/
def handle_clickS {B : Type} (o : Oracle B) (g : GStateS B) (pos : Int × Int) :
    Option (GStateS B × Option Sound) :=
  if ¬inBoundsS pos then
    some (clearSelS g, none)
  else
    match g.selected_square with
    | some sel => clickSelectedS o g sel (squareOfS pos)
    | none => some (clickIdleS o g (squareOfS pos), none)

/-- Run-loop state of chess_gui_sound.py: the GUI state plus the
game_over flag maintained by the loop. -/
structure SStateS (B : Type) where
  gs : GStateS B
  game_over : Bool

/-- A mouse click processed by the run loop of chess_gui_sound.py:
handle_click is invoked only while the game_over flag is unset.  none
models an uncaught exception inside handle_click. -/
def stepClickS {B : Type} (o : Oracle B) (s : SStateS B) (pos : Int × Int) :
    Option (SStateS B) :=
  if s.game_over = true then some s
  else
    match handle_clickS o s.gs pos with
    | some (g2, _) => some { gs := g2, game_over := s.game_over }
    | none => none

/-- The R key processed by the run loop of chess_gui_sound.py: only
effective while the game_over flag is set. -/
def stepKeyRS {B : Type} (o : Oracle B) (s : SStateS B) : SStateS B :=
  if s.game_over = true then
    { gs := { board := o.reset s.gs.board, selected_square := none, legal_moves := [] },
      game_over := false }
  else s

/-- The drawing phase of each loop iteration of chess_gui_sound.py:
the game_over flag is raised when the board reports a terminal
position. -/
def frameEndS {B : Type} (o : Oracle B) (s : SStateS B) : SStateS B :=
  { s with game_over := if o.is_game_over s.gs.board = true then true else s.game_over }

/-- The run-loop states of chess_gui_sound.py reachable from a fresh
state. -/
inductive ReachS {B : Type} (o : Oracle B) : SStateS B → Prop where
  | init (b : B) :
      ReachS o { gs := { board := b, selected_square := none, legal_moves := [] },
                 game_over := false }
  | click (s : SStateS B) (pos : Int × Int) (s2 : SStateS B) :
      ReachS o s → stepClickS o s pos = some s2 → ReachS o s2
  | keyR (s : SStateS B) :
      ReachS o s → ReachS o (stepKeyRS o s)
  | frame (s : SStateS B) :
      ReachS o s → ReachS o (frameEndS o s)

/-- The state invariant of chess_gui_sound.py. -/
def InvS {B : Type} (o : Oracle B) (g : GStateS B) : Prop :=
  (∀ sel, g.selected_square = some sel →
    ∃ p, o.piece_at g.board sel = some p ∧ p.color = o.turn g.board) ∧
  (g.selected_square = none → g.legal_moves = []) ∧
  (∀ sel, g.selected_square = some sel →
    g.legal_moves = (o.legal_moves g.board).filter (fun m => decide (m.from_square = sel)))

lemma handle_clickA_guard {B : Type} (o : Oracle B) (g : GStateA B) (pos : Int × Int)
    (h : guardA o g) : handle_clickA o g pos = some (g, none) := by
  unfold handle_clickA
  rw [if_pos h]

lemma handle_clickA_oob {B : Type} (o : Oracle B) (g : GStateA B) (pos : Int × Int)
    (h : ¬guardA o g) (hb : ¬inBoundsA pos) :
    handle_clickA o g pos = some (clearSelA g, none) := by
  unfold handle_clickA
  rw [if_neg h, if_pos hb]

lemma clickSelectedA_cases {B : Type} (o : Oracle B) (g : GStateA B) (sel sq : Nat)
    (g2 : GStateA B) (snd : Option Sound)
    (h : clickSelectedA o g sel sq = some (g2, snd)) :
    (∃ p, o.piece_at g.board sel = some p ∧
      moveForClickA p sel sq ∈ o.legal_moves g.board ∧
      g2 = applyStateA o g (moveForClickA p sel sq) ∧
      snd = some (classifySound o g.board (moveForClickA p sel sq))) ∨
    (∃ q, o.piece_at g.board sq = some q ∧ q.color = o.turn g.board ∧
      g2 = selectA o g sq ∧ snd = none) ∨
    (g2 = clearSelA g ∧ snd = none) := by
  unfold clickSelectedA at h
  cases hsel : o.piece_at g.board sel with
  | none => rw [hsel] at h; cases h
  | some p =>
    rw [hsel] at h
    simp only [] at h
    by_cases hmv : moveForClickA p sel sq ∈ o.legal_moves g.board
    · rw [if_pos hmv] at h
      left
      refine ⟨p, rfl, hmv, ?_, ?_⟩
      · injection h with h1; injection h1 with h1 h2; exact h1.symm
      · injection h with h1; injection h1 with h1 h2; exact h2.symm
    · rw [if_neg hmv] at h
      cases hq : o.piece_at g.board sq with
      | none =>
        rw [hq] at h
        right; right
        injection h with h1; injection h1 with h1 h2
        exact ⟨h1.symm, h2.symm⟩
      | some q =>
        rw [hq] at h
        simp only [] at h
        by_cases hc : q.color = o.turn g.board
        · rw [if_pos hc] at h
          right; left
          refine ⟨q, rfl, hc, ?_, ?_⟩
          · injection h with h1; injection h1 with h1 h2; exact h1.symm
          · injection h with h1; injection h1 with h1 h2; exact h2.symm
        · rw [if_neg hc] at h
          right; right
          injection h with h1; injection h1 with h1 h2
          exact ⟨h1.symm, h2.symm⟩

lemma clickIdleA_cases {B : Type} (o : Oracle B) (g : GStateA B) (sq : Nat) :
    (∃ p, o.piece_at g.board sq = some p ∧ p.color = o.turn g.board ∧
      clickIdleA o g sq = selectA o g sq) ∨
    clickIdleA o g sq = g := by
  unfold clickIdleA
  cases hq : o.piece_at g.board sq with
  | none => right; rfl
  | some p =>
    by_cases hc : p.color = o.turn g.board
    · left
      refine ⟨p, rfl, hc, ?_⟩
      show (if p.color = o.turn g.board then selectA o g sq else g) = selectA o g sq
      rw [if_pos hc]
    · right
      show (if p.color = o.turn g.board then selectA o g sq else g) = g
      rw [if_neg hc]

lemma handle_clickA_cases {B : Type} (o : Oracle B) (g : GStateA B) (pos : Int × Int)
    (g2 : GStateA B) (snd : Option Sound)
    (h : handle_clickA o g pos = some (g2, snd)) :
    (guardA o g ∧ g2 = g ∧ snd = none) ∨
    (¬guardA o g ∧ ¬inBoundsA pos ∧ g2 = clearSelA g ∧ snd = none) ∨
    (¬guardA o g ∧ inBoundsA pos ∧ ∃ sel, g.selected_square = some sel ∧
      clickSelectedA o g sel (squareOfA pos) = some (g2, snd)) ∨
    (¬guardA o g ∧ inBoundsA pos ∧ g.selected_square = none ∧
      g2 = clickIdleA o g (squareOfA pos) ∧ snd = none) := by
  unfold handle_clickA at h
  by_cases hg : guardA o g
  · rw [if_pos hg] at h
    left
    injection h with h1; injection h1 with h1 h2
    exact ⟨hg, h1.symm, h2.symm⟩
  · rw [if_neg hg] at h
    by_cases hb : inBoundsA pos
    · rw [if_neg (not_not_intro hb)] at h
      cases hsel : g.selected_square with
      | some sel =>
        rw [hsel] at h
        right; right; left
        exact ⟨hg, hb, sel, rfl, h⟩
      | none =>
        rw [hsel] at h
        right; right; right
        injection h with h1; injection h1 with h1 h2
        exact ⟨hg, hb, rfl, h1.symm, h2.symm⟩
    · rw [if_pos hb] at h
      right; left
      injection h with h1; injection h1 with h1 h2
      exact ⟨hg, hb, h1.symm, h2.symm⟩

lemma InvA_init {B : Type} (o : Oracle B) (b : B) (th : Bool) (hth : th = false) :
    InvA o { board := b, selected_square := none, legal_moves := [], ai_is_thinking := th } := by
  refine ⟨?_, ?_, ?_, ?_⟩
  · intro sel hsel; cases hsel
  · intro _; rfl
  · intro sel hsel; cases hsel
  · intro hth2; rw [hth] at hth2; cases hth2

lemma InvA_clearSelA {B : Type} (o : Oracle B) (g : GStateA B) (h : InvA o g) :
    InvA o (clearSelA g) := by
  obtain ⟨_, _, _, h4⟩ := h
  refine ⟨?_, ?_, ?_, ?_⟩
  · intro sel hsel; cases hsel
  · intro _; rfl
  · intro sel hsel; cases hsel
  · intro hth; exact ⟨rfl, (h4 hth).2⟩

lemma InvA_selectA {B : Type} (o : Oracle B) (g : GStateA B) (sq : Nat)
    (hq : ∃ q, o.piece_at g.board sq = some q ∧ q.color = o.turn g.board)
    (hth : g.ai_is_thinking = false) :
    InvA o (selectA o g sq) := by
  refine ⟨?_, ?_, ?_, ?_⟩
  · intro sel hsel
    injection hsel with hsel
    rw [← hsel]
    exact hq
  · intro hnone; cases hnone
  · intro sel hsel
    injection hsel with hsel
    rw [← hsel]
    rfl
  · intro hth2
    rw [show (selectA o g sq).ai_is_thinking = g.ai_is_thinking from rfl] at hth2
    rw [hth] at hth2
    cases hth2

lemma InvA_applyStateA {B : Type} (o : Oracle B) (g : GStateA B) (mv : Move) :
    InvA o (applyStateA o g mv) := by
  refine ⟨?_, ?_, ?_, ?_⟩
  · intro sel hsel; cases hsel
  · intro _; rfl
  · intro sel hsel; cases hsel
  · intro hth
    refine ⟨rfl, ?_⟩
    have hthb : (!(o.is_game_over (o.push g.board mv))) = true := hth
    cases hover : o.is_game_over (o.push g.board mv) with
    | false => exact hover
    | true => rw [hover] at hthb; simp at hthb

lemma handle_clickA_preserves_InvA {B : Type} (o : Oracle B) (g : GStateA B)
    (pos : Int × Int) (g2 : GStateA B) (snd : Option Sound)
    (hinv : InvA o g) (h : handle_clickA o g pos = some (g2, snd)) : InvA o g2 := by
  rcases handle_clickA_cases o g pos g2 snd h with
    ⟨_, hg2, _⟩ | ⟨_, _, hg2, _⟩ | ⟨hg, _, sel, hsel, hcs⟩ | ⟨hg, _, hsel, hg2, _⟩
  · rw [hg2]; exact hinv
  · rw [hg2]; exact InvA_clearSelA o g hinv
  · have hth : g.ai_is_thinking = false := by
      cases hth : g.ai_is_thinking
      · rfl
      · exact absurd (Or.inr (Or.inr hth)) hg
    rcases clickSelectedA_cases o g sel (squareOfA pos) g2 snd hcs with
      ⟨p, _, _, hg2, _⟩ | ⟨q, hq, hc, hg2, _⟩ | ⟨hg2, _⟩
    · rw [hg2]; exact InvA_applyStateA o g _
    · rw [hg2]; exact InvA_selectA o g _ ⟨q, hq, hc⟩ hth
    · rw [hg2]; exact InvA_clearSelA o g hinv
  · have hth : g.ai_is_thinking = false := by
      cases hth : g.ai_is_thinking
      · rfl
      · exact absurd (Or.inr (Or.inr hth)) hg
    rcases clickIdleA_cases o g (squareOfA pos) with ⟨q, hq, hc, heq⟩ | heq
    · rw [hg2, heq]; exact InvA_selectA o g _ ⟨q, hq, hc⟩ hth
    · rw [hg2, heq]; exact hinv

lemma aiStep_preserves_InvA {B : Type} (o : Oracle B) (g : GStateA B)
    (shuffled : List Move) (k : Nat) (g2 : GStateA B) (snd : Sound)
    (hinv : InvA o g) (hth : g.ai_is_thinking = true)
    (h : aiStep o g shuffled k = some (g2, snd)) : InvA o g2 := by
  obtain ⟨_, h2, _, h4⟩ := hinv
  obtain ⟨hselnone, _⟩ := h4 hth
  unfold aiStep at h
  cases hai : make_ai_move o g.board shuffled k with
  | none => rw [hai] at h; cases h
  | some r =>
    rw [hai] at h
    injection h with h1; injection h1 with h1 _
    rw [← h1]
    refine ⟨?_, ?_, ?_, ?_⟩
    · intro sel hsel
      rw [show ({ g with board := r.1, ai_is_thinking := false } : GStateA B).selected_square
            = g.selected_square from rfl, hselnone] at hsel
      cases hsel
    · intro _
      exact h2 hselnone
    · intro sel hsel
      rw [show ({ g with board := r.1, ai_is_thinking := false } : GStateA B).selected_square
            = g.selected_square from rfl, hselnone] at hsel
      cases hsel
    · intro hth2; cases hth2

lemma reachA_inv {B : Type} (o : Oracle B) (g : GStateA B) (h : ReachA o g) : InvA o g := by
  induction h with
  | init b => exact InvA_init o b false rfl
  | click g pos g2 snd _ hclick ih => exact handle_clickA_preserves_InvA o g pos g2 snd ih hclick
  | ai g shuffled k g2 snd _ hth hstep ih => exact aiStep_preserves_InvA o g shuffled k g2 snd ih hth hstep
  | reset g _ _ ih => exact InvA_init o (o.reset g.board) false rfl

lemma handle_clickA_no_crash {B : Type} (o : Oracle B) (g : GStateA B) (pos : Int × Int)
    (hinv : InvA o g) : (handle_clickA o g pos).isSome := by
  unfold handle_clickA
  by_cases hg : guardA o g
  · rw [if_pos hg]; rfl
  · rw [if_neg hg]
    by_cases hb : inBoundsA pos
    · rw [if_neg (not_not_intro hb)]
      cases hsel : g.selected_square with
      | none => rfl
      | some sel =>
        obtain ⟨h1, _, _, _⟩ := hinv
        obtain ⟨p, hp, _⟩ := h1 sel hsel
        show (clickSelectedA o g sel (squareOfA pos)).isSome = true
        unfold clickSelectedA
        simp only [hp]
        by_cases hmv : moveForClickA p sel (squareOfA pos) ∈ o.legal_moves g.board
        · rw [if_pos hmv]; rfl
        · rw [if_neg hmv]
          cases hq : o.piece_at g.board (squareOfA pos) with
          | none => rfl
          | some q =>
            show (if q.color = o.turn g.board then some (selectA o g (squareOfA pos), none)
                  else some (clearSelA g, none)).isSome = true
            by_cases hc : q.color = o.turn g.board
            · rw [if_pos hc]; rfl
            · rw [if_neg hc]; rfl
    · rw [if_pos hb]; rfl

lemma handle_clickS_oob {B : Type} (o : Oracle B) (g : GStateS B) (pos : Int × Int)
    (hb : ¬inBoundsS pos) : handle_clickS o g pos = some (clearSelS g, none) := by
  unfold handle_clickS
  rw [if_pos hb]

lemma clickSelectedS_cases {B : Type} (o : Oracle B) (g : GStateS B) (sel sq : Nat)
    (g2 : GStateS B) (snd : Option Sound)
    (h : clickSelectedS o g sel sq = some (g2, snd)) :
    (∃ p, o.piece_at g.board sel = some p ∧
      moveForClickS p (o.turn g.board) sel sq ∈ o.legal_moves g.board ∧
      g2 = applyStateS o g (moveForClickS p (o.turn g.board) sel sq) ∧
      snd = some (classifySound o g.board (moveForClickS p (o.turn g.board) sel sq))) ∨
    (∃ q, o.piece_at g.board sq = some q ∧ q.color = o.turn g.board ∧
      g2 = selectS o g sq ∧ snd = none) ∨
    (g2 = clearSelS g ∧ snd = none) := by
  unfold clickSelectedS at h
  cases hsel : o.piece_at g.board sel with
  | none => rw [hsel] at h; cases h
  | some p =>
    rw [hsel] at h
    simp only [] at h
    by_cases hmv : moveForClickS p (o.turn g.board) sel sq ∈ o.legal_moves g.board
    · rw [if_pos hmv] at h
      left
      refine ⟨p, rfl, hmv, ?_, ?_⟩
      · injection h with h1; injection h1 with h1 h2; exact h1.symm
      · injection h with h1; injection h1 with h1 h2; exact h2.symm
    · rw [if_neg hmv] at h
      cases hq : o.piece_at g.board sq with
      | none =>
        rw [hq] at h
        right; right
        injection h with h1; injection h1 with h1 h2
        exact ⟨h1.symm, h2.symm⟩
      | some q =>
        rw [hq] at h
        simp only [] at h
        by_cases hc : q.color = o.turn g.board
        · rw [if_pos hc] at h
          right; left
          refine ⟨q, rfl, hc, ?_, ?_⟩
          · injection h with h1; injection h1 with h1 h2; exact h1.symm
          · injection h with h1; injection h1 with h1 h2; exact h2.symm
        · rw [if_neg hc] at h
          right; right
          injection h with h1; injection h1 with h1 h2
          exact ⟨h1.symm, h2.symm⟩

lemma clickIdleS_cases {B : Type} (o : Oracle B) (g : GStateS B) (sq : Nat) :
    (∃ p, o.piece_at g.board sq = some p ∧ p.color = o.turn g.board ∧
      clickIdleS o g sq = selectS o g sq) ∨
    clickIdleS o g sq = g := by
  unfold clickIdleS
  cases hq : o.piece_at g.board sq with
  | none => right; rfl
  | some p =>
    by_cases hc : p.color = o.turn g.board
    · left
      refine ⟨p, rfl, hc, ?_⟩
      show (if p.color = o.turn g.board then selectS o g sq else g) = selectS o g sq
      rw [if_pos hc]
    · right
      show (if p.color = o.turn g.board then selectS o g sq else g) = g
      rw [if_neg hc]

lemma handle_clickS_cases {B : Type} (o : Oracle B) (g : GStateS B) (pos : Int × Int)
    (g2 : GStateS B) (snd : Option Sound)
    (h : handle_clickS o g pos = some (g2, snd)) :
    (¬inBoundsS pos ∧ g2 = clearSelS g ∧ snd = none) ∨
    (inBoundsS pos ∧ ∃ sel, g.selected_square = some sel ∧
      clickSelectedS o g sel (squareOfS pos) = some (g2, snd)) ∨
    (inBoundsS pos ∧ g.selected_square = none ∧
      g2 = clickIdleS o g (squareOfS pos) ∧ snd = none) := by
  unfold handle_clickS at h
  by_cases hb : inBoundsS pos
  · rw [if_neg (not_not_intro hb)] at h
    cases hsel : g.selected_square with
    | some sel =>
      rw [hsel] at h
      right; left
      exact ⟨hb, sel, rfl, h⟩
    | none =>
      rw [hsel] at h
      right; right
      injection h with h1; injection h1 with h1 h2
      exact ⟨hb, rfl, h1.symm, h2.symm⟩
  · rw [if_pos hb] at h
    left
    injection h with h1; injection h1 with h1 h2
    exact ⟨hb, h1.symm, h2.symm⟩

lemma InvS_init {B : Type} (o : Oracle B) (b : B) :
    InvS o { board := b, selected_square := none, legal_moves := [] } := by
  refine ⟨?_, ?_, ?_⟩
  · intro sel hsel; cases hsel
  · intro _; rfl
  · intro sel hsel; cases hsel

lemma InvS_clearSelS {B : Type} (o : Oracle B) (g : GStateS B) :
    InvS o (clearSelS g) := by
  refine ⟨?_, ?_, ?_⟩
  · intro sel hsel; cases hsel
  · intro _; rfl
  · intro sel hsel; cases hsel

lemma InvS_selectS {B : Type} (o : Oracle B) (g : GStateS B) (sq : Nat)
    (hq : ∃ q, o.piece_at g.board sq = some q ∧ q.color = o.turn g.board) :
    InvS o (selectS o g sq) := by
  refine ⟨?_, ?_, ?_⟩
  · intro sel hsel
    injection hsel with hsel
    rw [← hsel]
    exact hq
  · intro hnone; cases hnone
  · intro sel hsel
    injection hsel with hsel
    rw [← hsel]
    rfl

lemma InvS_applyStateS {B : Type} (o : Oracle B) (g : GStateS B) (mv : Move) :
    InvS o (applyStateS o g mv) := by
  refine ⟨?_, ?_, ?_⟩
  · intro sel hsel; cases hsel
  · intro _; rfl
  · intro sel hsel; cases hsel

lemma handle_clickS_preserves_InvS {B : Type} (o : Oracle B) (g : GStateS B)
    (pos : Int × Int) (g2 : GStateS B) (snd : Option Sound)
    (hinv : InvS o g) (h : handle_clickS o g pos = some (g2, snd)) : InvS o g2 := by
  rcases handle_clickS_cases o g pos g2 snd h with
    ⟨_, hg2, _⟩ | ⟨_, sel, hsel, hcs⟩ | ⟨_, hsel, hg2, _⟩
  · rw [hg2]; exact InvS_clearSelS o g
  · rcases clickSelectedS_cases o g sel (squareOfS pos) g2 snd hcs with
      ⟨p, _, _, hg2, _⟩ | ⟨q, hq, hc, hg2, _⟩ | ⟨hg2, _⟩
    · rw [hg2]; exact InvS_applyStateS o g _
    · rw [hg2]; exact InvS_selectS o g _ ⟨q, hq, hc⟩
    · rw [hg2]; exact InvS_clearSelS o g
  · rcases clickIdleS_cases o g (squareOfS pos) with ⟨q, hq, hc, heq⟩ | heq
    · rw [hg2, heq]; exact InvS_selectS o g _ ⟨q, hq, hc⟩
    · rw [hg2, heq]; exact hinv

lemma reachS_inv {B : Type} (o : Oracle B) (s : SStateS B) (h : ReachS o s) : InvS o s.gs := by
  induction h with
  | init b => exact InvS_init o b
  | click s pos s2 _ hclick ih =>
    unfold stepClickS at hclick
    by_cases hov : s.game_over = true
    · rw [if_pos hov] at hclick
      injection hclick with h1
      rw [← h1]
      exact ih
    · rw [if_neg hov] at hclick
      cases hc : handle_clickS o s.gs pos with
      | none => rw [hc] at hclick; cases hclick
      | some r =>
        rw [hc] at hclick
        injection hclick with h1
        rw [← h1]
        exact handle_clickS_preserves_InvS o s.gs pos r.1 r.2 ih hc
  | keyR s _ ih =>
    unfold stepKeyRS
    by_cases hov : s.game_over = true
    · rw [if_pos hov]
      exact InvS_init o (o.reset s.gs.board)
    · rw [if_neg hov]
      exact ih
  | frame s _ ih => exact ih

lemma handle_clickS_no_crash {B : Type} (o : Oracle B) (g : GStateS B) (pos : Int × Int)
    (hinv : InvS o g) : (handle_clickS o g pos).isSome := by
  unfold handle_clickS
  by_cases hb : inBoundsS pos
  · rw [if_neg (not_not_intro hb)]
    cases hsel : g.selected_square with
    | none => rfl
    | some sel =>
      obtain ⟨h1, _, _⟩ := hinv
      obtain ⟨p, hp, _⟩ := h1 sel hsel
      show (clickSelectedS o g sel (squareOfS pos)).isSome = true
      unfold clickSelectedS
      simp only [hp]
      by_cases hmv : moveForClickS p (o.turn g.board) sel (squareOfS pos) ∈ o.legal_moves g.board
      · rw [if_pos hmv]; rfl
      · rw [if_neg hmv]
        cases hq : o.piece_at g.board (squareOfS pos) with
        | none => rfl
        | some q =>
          show (if q.color = o.turn g.board then some (selectS o g (squareOfS pos), none)
                else some (clearSelS g, none)).isSome = true
          by_cases hc : q.color = o.turn g.board
          · rw [if_pos hc]; rfl
          · rw [if_neg hc]; rfl
  · rw [if_pos hb]; rfl

lemma handle_clickA_selected {B : Type} (o : Oracle B) (g : GStateA B) (pos : Int × Int)
    (sel : Nat) (hg : ¬guardA o g) (hb : inBoundsA pos)
    (hsel : g.selected_square = some sel) :
    handle_clickA o g pos = clickSelectedA o g sel (squareOfA pos) := by
  unfold handle_clickA
  rw [if_neg hg, if_neg (not_not_intro hb), hsel]

lemma handle_clickS_selected {B : Type} (o : Oracle B) (g : GStateS B) (pos : Int × Int)
    (sel : Nat) (hb : inBoundsS pos) (hsel : g.selected_square = some sel) :
    handle_clickS o g pos = clickSelectedS o g sel (squareOfS pos) := by
  unfold handle_clickS
  rw [if_neg (not_not_intro hb), hsel]

lemma clickSelectedA_apply {B : Type} (o : Oracle B) (g : GStateA B) (sel sq : Nat)
    (p : Piece) (hp : o.piece_at g.board sel = some p)
    (hmv : moveForClickA p sel sq ∈ o.legal_moves g.board) :
    clickSelectedA o g sel sq =
      some (applyStateA o g (moveForClickA p sel sq),
        some (classifySound o g.board (moveForClickA p sel sq))) := by
  unfold clickSelectedA
  simp only [hp]
  rw [if_pos hmv]

lemma clickSelectedS_apply {B : Type} (o : Oracle B) (g : GStateS B) (sel sq : Nat)
    (p : Piece) (hp : o.piece_at g.board sel = some p)
    (hmv : moveForClickS p (o.turn g.board) sel sq ∈ o.legal_moves g.board) :
    clickSelectedS o g sel sq =
      some (applyStateS o g (moveForClickS p (o.turn g.board) sel sq),
        some (classifySound o g.board (moveForClickS p (o.turn g.board) sel sq))) := by
  unfold clickSelectedS
  simp only [hp]
  rw [if_pos hmv]

/-- The last rank for a colour: 7 for white, 0 for black. -/
def lastRank (c : Bool) : Nat := if c = true then 7 else 0

/-- The mover's own back rank: 0 for white, 7 for black. -/
def ownBackRank (c : Bool) : Nat := if c = true then 0 else 7

lemma moveForClickA_promotion (p : Piece) (sel sq : Nat)
    (hpawn : p.ptype = PieceType.pawn) (hr : square_rank sq = lastRank p.color) :
    moveForClickA p sel sq = Move.mk sel sq (some PieceType.queen) := by
  unfold moveForClickA
  rw [if_pos]
  refine ⟨hpawn, ?_⟩
  unfold lastRank at hr
  cases hc : p.color with
  | true => right; rw [hc] at hr; simpa using hr
  | false => left; rw [hc] at hr; simpa using hr

lemma moveForClickS_promotion (p : Piece) (t : Bool) (sel sq : Nat)
    (hpawn : p.ptype = PieceType.pawn) (hcol : p.color = t)
    (hr : square_rank sq = lastRank p.color) :
    moveForClickS p t sel sq = Move.mk sel sq (some PieceType.queen) := by
  unfold moveForClickS
  rw [if_pos]
  refine ⟨hpawn, ?_⟩
  unfold lastRank at hr
  cases hc : p.color with
  | true =>
    left
    rw [hc] at hr
    exact ⟨by simpa using hr, by rw [← hcol, hc]⟩
  | false =>
    right
    rw [hc] at hr
    exact ⟨by simpa using hr, by rw [← hcol, hc]⟩

lemma moveForClickA_ownback (p : Piece) (t : Bool) (sel sq : Nat)
    (hpawn : p.ptype = PieceType.pawn) (hr : square_rank sq = ownBackRank t) :
    moveForClickA p sel sq = Move.mk sel sq (some PieceType.queen) := by
  unfold moveForClickA
  rw [if_pos]
  refine ⟨hpawn, ?_⟩
  unfold ownBackRank at hr
  cases ht : t with
  | true => left; rw [ht] at hr; simpa using hr
  | false => right; rw [ht] at hr; simpa using hr

lemma moveForClickS_ownback (p : Piece) (t : Bool) (sel sq : Nat)
    (hpawn : p.ptype = PieceType.pawn) (hr : square_rank sq = ownBackRank t) :
    moveForClickS p t sel sq = Move.mk sel sq none := by
  unfold moveForClickS
  rw [if_neg]
  intro hcond
  unfold ownBackRank at hr
  rcases hcond.2 with ⟨h7, ht⟩ | ⟨h0, ht⟩
  · rw [ht, h7] at hr
    simp at hr
  · rw [ht, h0] at hr
    simp at hr

lemma moveForClick_eq_of_not_ownback (p : Piece) (t : Bool) (sel sq : Nat)
    (h : ¬(p.ptype = PieceType.pawn ∧ square_rank sq = ownBackRank t)) :
    moveForClickS p t sel sq = moveForClickA p sel sq := by
  unfold moveForClickS moveForClickA
  have hpr : (if p.ptype = PieceType.pawn ∧
        ((square_rank sq = 7 ∧ t = true) ∨ (square_rank sq = 0 ∧ t = false)) then
        some PieceType.queen else none)
      = (if p.ptype = PieceType.pawn ∧ (square_rank sq = 0 ∨ square_rank sq = 7) then
        some PieceType.queen else none) := by
    by_cases hS : p.ptype = PieceType.pawn ∧
        ((square_rank sq = 7 ∧ t = true) ∨ (square_rank sq = 0 ∧ t = false))
    · rw [if_pos hS,
        if_pos ⟨hS.1, hS.2.elim (fun h2 => Or.inr h2.1) (fun h2 => Or.inl h2.1)⟩]
    · rw [if_neg hS]
      by_cases hA : p.ptype = PieceType.pawn ∧ (square_rank sq = 0 ∨ square_rank sq = 7)
      · exfalso
        obtain ⟨hpawn, hr⟩ := hA
        unfold ownBackRank at h
        cases ht : t with
        | true =>
          rcases hr with hr | hr
          · exact h ⟨hpawn, by rw [ht]; simpa using hr⟩
          · exact hS ⟨hpawn, Or.inl ⟨hr, ht⟩⟩
        | false =>
          rcases hr with hr | hr
          · exact hS ⟨hpawn, Or.inr ⟨hr, ht⟩⟩
          · exact h ⟨hpawn, by rw [ht]; simpa using hr⟩
      · rw [if_neg hA]
  rw [hpr]

/-- Componentwise agreement of the outcomes of the two variants'
selected-click handlers: both crash, or both produce the same board,
selection, legal-move cache and sound. -/
def resultsAgree {B : Type} :
    Option (GStateA B × Option Sound) → Option (GStateS B × Option Sound) → Prop
  | none, none => True
  | some (ga, sa), some (gs, ss) =>
      ga.board = gs.board ∧ ga.selected_square = gs.selected_square ∧
      ga.legal_moves = gs.legal_moves ∧ sa = ss
  | _, _ => False

lemma elseAgree {B : Type} (o : Oracle B) (gA : GStateA B) (gS : GStateS B) (sq : Nat)
    (hboard : gA.board = gS.board) :
    resultsAgree
      (match o.piece_at gA.board sq with
       | some q =>
         if q.color = o.turn gA.board then some (selectA o gA sq, none)
         else some (clearSelA gA, none)
       | none => some (clearSelA gA, none))
      (match o.piece_at gA.board sq with
       | some q =>
         if q.color = o.turn gA.board then some (selectS o gS sq, none)
         else some (clearSelS gS, none)
       | none => some (clearSelS gS, none)) := by
  cases hq : o.piece_at gA.board sq with
  | none => exact ⟨hboard, rfl, rfl, rfl⟩
  | some q =>
    show resultsAgree
      (if q.color = o.turn gA.board then some (selectA o gA sq, none)
       else some (clearSelA gA, none))
      (if q.color = o.turn gA.board then some (selectS o gS sq, none)
       else some (clearSelS gS, none))
    by_cases hc : q.color = o.turn gA.board
    · rw [if_pos hc, if_pos hc]
      refine ⟨hboard, rfl, ?_, rfl⟩
      show (o.legal_moves gA.board).filter (fun m => decide (m.from_square = sq)) =
           (o.legal_moves gS.board).filter (fun m => decide (m.from_square = sq))
      rw [hboard]
    · rw [if_neg hc, if_neg hc]
      exact ⟨hboard, rfl, rfl, rfl⟩

lemma clickSelected_agree_of_move_eq {B : Type} (o : Oracle B)
    (gA : GStateA B) (gS : GStateS B) (sel sq : Nat) (p : Piece)
    (hboard : gA.board = gS.board)
    (hp : o.piece_at gA.board sel = some p)
    (hmveq : moveForClickS p (o.turn gA.board) sel sq = moveForClickA p sel sq) :
    resultsAgree (clickSelectedA o gA sel sq) (clickSelectedS o gS sel sq) := by
  unfold clickSelectedA clickSelectedS
  rw [← hboard]
  simp only [hp, hmveq]
  by_cases hmv : moveForClickA p sel sq ∈ o.legal_moves gA.board
  · rw [if_pos hmv, if_pos hmv]
    refine ⟨?_, rfl, rfl, rfl⟩
    show o.push gA.board (moveForClickA p sel sq) = o.push gS.board (moveForClickA p sel sq)
    rw [hboard]
  · rw [if_neg hmv, if_neg hmv]
    exact elseAgree o gA gS sq hboard

lemma clickSelected_agree_noapply {B : Type} (o : Oracle B)
    (gA : GStateA B) (gS : GStateS B) (sel sq : Nat) (p : Piece)
    (hboard : gA.board = gS.board)
    (hp : o.piece_at gA.board sel = some p)
    (hA : moveForClickA p sel sq ∉ o.legal_moves gA.board)
    (hS : moveForClickS p (o.turn gA.board) sel sq ∉ o.legal_moves gA.board) :
    resultsAgree (clickSelectedA o gA sel sq) (clickSelectedS o gS sel sq) := by
  unfold clickSelectedA clickSelectedS
  rw [← hboard]
  simp only [hp]
  rw [if_neg hA, if_neg hS]
  exact elseAgree o gA gS sq hboard

lemma find_best_move_result {B : Type} (o : Oracle B) (b : B)
    (shuffled : List Move) (k : Nat) (hne : shuffled ≠ [])
    (hpop : ∀ m ∈ shuffled, o.pop (o.push b m) = b) :
    ∃ m, find_best_move o b shuffled k = (b, some m) := by
  by_cases ht : o.turn b = true
  · have hsome : ((fbmMaxLoop o b none none shuffled).2.1).isSome = true := by
      cases hs : shuffled with
      | nil => exact absurd hs hne
      | cons a rest =>
        have hstep : fbmMaxLoop o b none none (a :: rest) =
            fbmMaxLoop o (o.pop (o.push b a)) (some a)
              (some (evaluate_board o (o.push b a))) rest := rfl
        rw [hstep]
        exact fbmMaxLoop_isSome o rest _ a _
    rcases Option.isSome_iff_exists.mp hsome with ⟨m, hm⟩
    refine ⟨m, ?_⟩
    unfold find_best_move
    rw [if_pos ht, hm]
    have hb : (fbmMaxLoop o b none none shuffled).1 = b :=
      fbmMaxLoop_board o shuffled b hpop none none
    rw [hb]
  · have hsome : ((fbmMinLoop o b none none shuffled).2.1).isSome = true := by
      cases hs : shuffled with
      | nil => exact absurd hs hne
      | cons a rest =>
        have hstep : fbmMinLoop o b none none (a :: rest) =
            fbmMinLoop o (o.pop (o.push b a)) (some a)
              (some (evaluate_board o (o.push b a))) rest := rfl
        rw [hstep]
        exact fbmMinLoop_isSome o rest _ a _
    rcases Option.isSome_iff_exists.mp hsome with ⟨m, hm⟩
    refine ⟨m, ?_⟩
    unfold find_best_move
    rw [if_neg ht, hm]
    have hb : (fbmMinLoop o b none none shuffled).1 = b :=
      fbmMinLoop_board o shuffled b hpop none none
    rw [hb]

/-- C4 (amended): in chess_gui.py the handle_click guard returns the
state untouched with no sound whenever the automated player is to
move, the AI is computing, or the game is over, and in any reachable
chess_gui.py state whose board is terminal no AI move is pending, so
no move is applied there until an explicit reset.  In
chess_gui_sound.py the run loop drops clicks once its game_over flag
is set, and the flag is raised at the end of any frame whose board is
terminal, after which every click is ignored until an explicit reset;
a click processed before that frame boundary, in the same event batch
as the game-ending move, can however still reach handle_click (see the
counterexample). -/
theorem clicks_ignored_when_inactive_amended {B : Type} (o : Oracle B) :
    (∀ (g : GStateA B) (pos : Int × Int),
      o.turn g.board = AI_PLAYER ∨ o.is_game_over g.board = true ∨ g.ai_is_thinking = true →
      handle_clickA o g pos = some (g, none)) ∧
    (∀ (s : SStateS B) (pos : Int × Int), s.game_over = true →
      stepClickS o s pos = some s) ∧
    (∀ g : GStateA B, ReachA o g → o.is_game_over g.board = true →
      g.ai_is_thinking = false ∧
      ∀ (pos : Int × Int) (g2 : GStateA B) (snd : Option Sound),
        handle_clickA o g pos = some (g2, snd) → g2 = g ∧ snd = none) ∧
    (∀ s : SStateS B, o.is_game_over s.gs.board = true →
      (frameEndS o s).game_over = true ∧
      ∀ pos : Int × Int, stepClickS o (frameEndS o s) pos = some (frameEndS o s)) := by
  refine ⟨?_, ?_, ?_, ?_⟩
  · intro g pos h
    exact handle_clickA_guard o g pos h
  · intro s pos h
    unfold stepClickS
    rw [if_pos h]
  · intro g hreach hover
    have hinv := reachA_inv o g hreach
    have hth : g.ai_is_thinking = false := by
      cases hth : g.ai_is_thinking with
      | false => rfl
      | true =>
        obtain ⟨_, _, _, h4⟩ := hinv
        rw [(h4 hth).2] at hover
        cases hover
    refine ⟨hth, ?_⟩
    intro pos g2 snd h
    rw [handle_clickA_guard o g pos (Or.inr (Or.inl hover))] at h
    injection h with h1
    injection h1 with h1 h2
    exact ⟨h1.symm, h2.symm⟩
  · intro s hover
    have hflag : (frameEndS o s).game_over = true := by
      show (if o.is_game_over s.gs.board = true then true else s.game_over) = true
      rw [if_pos hover]
    refine ⟨hflag, ?_⟩
    intro pos
    unfold stepClickS
    rw [if_pos hflag]

/-- C5: a click handled in the PieceSelected state whose origin holds
a pawn of the side to move, whose destination lies on the last rank
for that pawn's colour, and for which the queen-promotion move is
legal, applies exactly that queen-promotion move — promotion is always
automatically to a queen, in both variants. -/
theorem pawn_promotion_auto_queen {B : Type} (o : Oracle B) :
    (∀ (g : GStateA B) (pos : Int × Int) (sel : Nat) (p : Piece),
      ¬guardA o g → inBoundsA pos → g.selected_square = some sel →
      o.piece_at g.board sel = some p → p.ptype = PieceType.pawn →
      p.color = o.turn g.board →
      square_rank (squareOfA pos) = lastRank p.color →
      Move.mk sel (squareOfA pos) (some PieceType.queen) ∈ o.legal_moves g.board →
      handle_clickA o g pos =
        some (applyStateA o g (Move.mk sel (squareOfA pos) (some PieceType.queen)),
          some (classifySound o g.board (Move.mk sel (squareOfA pos) (some PieceType.queen))))) ∧
    (∀ (g : GStateS B) (pos : Int × Int) (sel : Nat) (p : Piece),
      inBoundsS pos → g.selected_square = some sel →
      o.piece_at g.board sel = some p → p.ptype = PieceType.pawn →
      p.color = o.turn g.board →
      square_rank (squareOfS pos) = lastRank p.color →
      Move.mk sel (squareOfS pos) (some PieceType.queen) ∈ o.legal_moves g.board →
      handle_clickS o g pos =
        some (applyStateS o g (Move.mk sel (squareOfS pos) (some PieceType.queen)),
          some (classifySound o g.board (Move.mk sel (squareOfS pos) (some PieceType.queen))))) := by
  constructor
  · intro g pos sel p hg hb hsel hp hpawn _ hr hmv
    have hmveq := moveForClickA_promotion p sel (squareOfA pos) hpawn hr
    rw [handle_clickA_selected o g pos sel hg hb hsel,
      clickSelectedA_apply o g sel (squareOfA pos) p hp (by rw [hmveq]; exact hmv), hmveq]
  · intro g pos sel p hb hsel hp hpawn hcol hr hmv
    have hmveq := moveForClickS_promotion p (o.turn g.board) sel (squareOfS pos) hpawn hcol hr
    rw [handle_clickS_selected o g pos sel hb hsel,
      clickSelectedS_apply o g sel (squareOfS pos) p hp (by rw [hmveq]; exact hmv), hmveq]

/-- C6: every applied move signals exactly one sound, classified with
priority check, then capture, then quiet move, where the capture
predicate is queried on the pre-move board and the check predicate on
the post-move board; this holds for the human click handler of both
variants and for make_ai_move. -/
theorem move_sound_classification {B : Type} (o : Oracle B) :
    (∀ (b : B) (mv : Move),
      classifySound o b mv =
        if o.is_check (o.push b mv) = true then Sound.check
        else if o.is_capture b mv = true then Sound.capture
        else Sound.quiet) ∧
    (∀ (g : GStateA B) (pos : Int × Int) (sel : Nat) (p : Piece),
      ¬guardA o g → inBoundsA pos → g.selected_square = some sel →
      o.piece_at g.board sel = some p →
      moveForClickA p sel (squareOfA pos) ∈ o.legal_moves g.board →
      handle_clickA o g pos =
        some (applyStateA o g (moveForClickA p sel (squareOfA pos)),
          some (classifySound o g.board (moveForClickA p sel (squareOfA pos))))) ∧
    (∀ (b : B) (shuffled : List Move) (k : Nat),
      shuffled ≠ [] → (∀ m ∈ shuffled, o.pop (o.push b m) = b) →
      ∃ m, (find_best_move o b shuffled k).2 = some m ∧
        make_ai_move o b shuffled k = some (o.push b m, classifySound o b m)) ∧
    (∀ (g : GStateS B) (pos : Int × Int) (sel : Nat) (p : Piece),
      inBoundsS pos → g.selected_square = some sel →
      o.piece_at g.board sel = some p →
      moveForClickS p (o.turn g.board) sel (squareOfS pos) ∈ o.legal_moves g.board →
      handle_clickS o g pos =
        some (applyStateS o g (moveForClickS p (o.turn g.board) sel (squareOfS pos)),
          some (classifySound o g.board (moveForClickS p (o.turn g.board) sel (squareOfS pos))))) := by
  refine ⟨?_, ?_, ?_, ?_⟩
  · intro b mv; rfl
  · intro g pos sel p hg hb hsel hp hmv
    rw [handle_clickA_selected o g pos sel hg hb hsel,
      clickSelectedA_apply o g sel (squareOfA pos) p hp hmv]
  · intro b shuffled k hne hpop
    obtain ⟨m, hm⟩ := find_best_move_result o b shuffled k hne hpop
    refine ⟨m, by rw [hm], ?_⟩
    unfold make_ai_move
    rw [hm]
  · intro g pos sel p hb hsel hp hmv
    rw [handle_clickS_selected o g pos sel hb hsel,
      clickSelectedS_apply o g sel (squareOfS pos) p hp hmv]

/-- C7: after every handled click (over all reachable states of either
variant) the selection state satisfies: either no square is selected
and the cached legal-move list is empty, or the cache equals exactly
the legal moves of the current board originating at the selected
square; and a click outside the board's pixel bounds clears the
selection and changes nothing else (no board change, no sound). -/
theorem selection_cache_invariant {B : Type} (o : Oracle B) :
    (∀ g : GStateA B, ReachA o g →
      (g.selected_square = none ∧ g.legal_moves = []) ∨
      (∃ sel, g.selected_square = some sel ∧
        g.legal_moves = (o.legal_moves g.board).filter (fun m => decide (m.from_square = sel)))) ∧
    (∀ s : SStateS B, ReachS o s →
      (s.gs.selected_square = none ∧ s.gs.legal_moves = []) ∨
      (∃ sel, s.gs.selected_square = some sel ∧
        s.gs.legal_moves =
          (o.legal_moves s.gs.board).filter (fun m => decide (m.from_square = sel)))) ∧
    (∀ (g : GStateA B) (pos : Int × Int), ¬guardA o g → ¬inBoundsA pos →
      handle_clickA o g pos = some (clearSelA g, none)) ∧
    (∀ (g : GStateS B) (pos : Int × Int), ¬inBoundsS pos →
      handle_clickS o g pos = some (clearSelS g, none)) := by
  refine ⟨?_, ?_, ?_, ?_⟩
  · intro g hreach
    obtain ⟨_, h2, h3, _⟩ := reachA_inv o g hreach
    cases hsel : g.selected_square with
    | none => exact Or.inl ⟨rfl, h2 hsel⟩
    | some sel => exact Or.inr ⟨sel, rfl, h3 sel hsel⟩
  · intro s hreach
    obtain ⟨_, h2, h3⟩ := reachS_inv o s hreach
    cases hsel : s.gs.selected_square with
    | none => exact Or.inl ⟨rfl, h2 hsel⟩
    | some sel => exact Or.inr ⟨sel, rfl, h3 sel hsel⟩
  · intro g pos hg hb
    exact handle_clickA_oob o g pos hg hb
  · intro g pos hb
    exact handle_clickS_oob o g pos hb

/-- C9: in every reachable state of either variant, a non-empty
selection always points at a square holding a piece of the side to
move, so the piece_at dereference inside handle_click never fails:
handle_click always returns a result rather than crashing. -/
theorem selected_piece_deref_safe {B : Type} (o : Oracle B) :
    (∀ g : GStateA B, ReachA o g →
      (∀ sel, g.selected_square = some sel →
        ∃ p, o.piece_at g.board sel = some p ∧ p.color = o.turn g.board) ∧
      ∀ pos : Int × Int, (handle_clickA o g pos).isSome = true) ∧
    (∀ s : SStateS B, ReachS o s →
      (∀ sel, s.gs.selected_square = some sel →
        ∃ p, o.piece_at s.gs.board sel = some p ∧ p.color = o.turn s.gs.board) ∧
      ∀ pos : Int × Int, (handle_clickS o s.gs pos).isSome = true) := by
  constructor
  · intro g hreach
    have hinv := reachA_inv o g hreach
    exact ⟨hinv.1, fun pos => handle_clickA_no_crash o g pos hinv⟩
  · intro s hreach
    have hinv := reachS_inv o s hreach
    exact ⟨hinv.1, fun pos => handle_clickS_no_crash o s.gs pos hinv⟩

/-- C10: the two variants' promotion-eligibility tests are
behaviourally equivalent at the board level: for a selection holding a
piece of the side to move and any clicked square, provided the oracle
never deems legal a pawn move (with or without queen promotion) to the
mover's own back rank, the selected-click handlers of the two files
produce agreeing results — the same applied move and resulting board,
or the same non-application. -/
theorem promotion_tests_equivalent {B : Type} (o : Oracle B)
    (gA : GStateA B) (gS : GStateS B) (sel sq : Nat) (p : Piece)
    (hboard : gA.board = gS.board)
    (hp : o.piece_at gA.board sel = some p)
    (hcol : p.color = o.turn gA.board)
    (hbackQ : p.ptype = PieceType.pawn → square_rank sq = ownBackRank (o.turn gA.board) →
      Move.mk sel sq (some PieceType.queen) ∉ o.legal_moves gA.board)
    (hbackN : p.ptype = PieceType.pawn → square_rank sq = ownBackRank (o.turn gA.board) →
      Move.mk sel sq none ∉ o.legal_moves gA.board) :
    resultsAgree (clickSelectedA o gA sel sq) (clickSelectedS o gS sel sq) := by
  by_cases hcase : p.ptype = PieceType.pawn ∧ square_rank sq = ownBackRank (o.turn gA.board)
  · obtain ⟨hpawn, hrank⟩ := hcase
    apply clickSelected_agree_noapply o gA gS sel sq p hboard hp
    · rw [moveForClickA_ownback p (o.turn gA.board) sel sq hpawn hrank]
      exact hbackQ hpawn hrank
    · rw [moveForClickS_ownback p (o.turn gA.board) sel sq hpawn hrank]
      exact hbackN hpawn hrank
  · apply clickSelected_agree_of_move_eq o gA gS sel sq p hboard hp
    exact moveForClick_eq_of_not_ownback p (o.turn gA.board) sel sq hcase

/-! Concrete instantiation: a small executable rules oracle used to
exhibit satisfiable hypotheses of the theorems above.  A toy board
carries an explicit placement, side to move, legal-move list and
status flags, plus a history stack so that push and pop are exact
inverses, as with the real library. -/

structure TBCore where
  placement : List (Nat × Piece)
  turn : Bool
  legal : List Move
  over : Bool
  chk : Bool
deriving DecidableEq, Repr

structure TB where
  core : TBCore
  hist : List TBCore
deriving DecidableEq, Repr

def toyPieceAt (b : TB) (sq : Nat) : Option Piece :=
  (b.core.placement.find? (fun e => decide (e.1 = sq))).map Prod.snd

def toyApply (pl : List (Nat × Piece)) (mv : Move) : List (Nat × Piece) :=
  match (pl.find? (fun e => decide (e.1 = mv.from_square))).map Prod.snd with
  | none => pl
  | some p =>
    (mv.to_square,
      match mv.promotion with
      | some t => { ptype := t, color := p.color }
      | none => p) ::
    pl.filter (fun e => decide (e.1 ≠ mv.from_square ∧ e.1 ≠ mv.to_square))

def toyPush (b : TB) (mv : Move) : TB :=
  { core := { placement := toyApply b.core.placement mv, turn := !b.core.turn,
              legal := [], over := false, chk := false },
    hist := b.core :: b.hist }

def toyPop (b : TB) : TB :=
  match b.hist with
  | c :: rest => { core := c, hist := rest }
  | [] => b

def toyO : Oracle TB :=
  { piece_at := toyPieceAt,
    turn := fun b => b.core.turn,
    legal_moves := fun b => if b.core.over = true then [] else b.core.legal,
    push := toyPush,
    pop := toyPop,
    is_capture := fun b mv => (toyPieceAt b mv.to_square).isSome,
    is_check := fun b => b.core.chk,
    is_game_over := fun b => b.core.over,
    reset := fun _ => { core := { placement := [], turn := true, legal := [],
                                  over := false, chk := false }, hist := [] } }

def wR : Piece := { ptype := PieceType.rook, color := true }
def wP : Piece := { ptype := PieceType.pawn, color := true }
def bP : Piece := { ptype := PieceType.pawn, color := false }
def bN : Piece := { ptype := PieceType.knight, color := false }

def m08 : Move := { from_square := 0, to_square := 8, promotion := none }
def m01 : Move := { from_square := 0, to_square := 1, promotion := none }

/-- A white-to-move position: white rook on 0, black pawn on 8, black
knight on 9, with two legal rook moves. -/
def tb1 : TB :=
  { core := { placement := [(0, wR), (8, bP), (9, bN)], turn := true,
              legal := [m08, m01], over := false, chk := false },
    hist := [] }

def g0 : GStateA TB :=
  { board := tb1, selected_square := none, legal_moves := [], ai_is_thinking := false }

def gSel : GStateA TB :=
  { board := tb1, selected_square := some 0, legal_moves := [m08, m01],
    ai_is_thinking := false }

lemma reach_g0 : ReachA toyO g0 := ReachA.init tb1

lemma click_g0_gSel : handle_clickA toyO g0 (40, 670) = some (gSel, none) := by rfl

lemma reach_gSel : ReachA toyO gSel :=
  ReachA.click g0 (40, 670) gSel none reach_g0 click_g0_gSel

def tbOver : TB :=
  { core := { placement := [(0, wR)], turn := false, legal := [], over := true, chk := false },
    hist := [] }

def g0over : GStateA TB :=
  { board := tbOver, selected_square := none, legal_moves := [], ai_is_thinking := false }

def sOver : SStateS TB :=
  { gs := { board := tbOver, selected_square := none, legal_moves := [] }, game_over := true }

def mq : Move := { from_square := 48, to_square := 56, promotion := some PieceType.queen }

/-- A white pawn one step from promotion, its queening move legal. -/
def tb2 : TB :=
  { core := { placement := [(48, wP)], turn := true, legal := [mq], over := false, chk := false },
    hist := [] }

def gPr : GStateA TB :=
  { board := tb2, selected_square := some 48, legal_moves := [mq], ai_is_thinking := false }

def gPrS : GStateS TB :=
  { board := tb2, selected_square := some 48, legal_moves := [mq] }

def m816 : Move := { from_square := 8, to_square := 16, promotion := none }

/-- A white pawn on its own second rank; the only legal move is a push
forward, and no move to white's own back rank is legal. -/
def tb3 : TB :=
  { core := { placement := [(8, wP)], turn := true, legal := [m816], over := false, chk := false },
    hist := [] }

def gA10 : GStateA TB :=
  { board := tb3, selected_square := some 8, legal_moves := [m816], ai_is_thinking := false }

def gS10 : GStateS TB :=
  { board := tb3, selected_square := some 8, legal_moves := [m816] }

def sOverPre : SStateS TB :=
  { gs := { board := tbOver, selected_square := none, legal_moves := [] }, game_over := false }

/-! Counterexample material for C4: a rules oracle in which a move
leads to a terminal position that still has legal moves — as with
python-chess draws by insufficient material, the seventy-five-move
rule or fivefold repetition — exposes the one-frame lag of the
game_over flag in chess_gui_sound.py. -/

def mB : Move := { from_square := 2, to_square := 18, promotion := none }

/-- A position that is game over by a draw rule yet still has a legal
move (black knight on 2 can play mB). -/
def bDrawCore : TBCore :=
  { placement := [(2, bN)], turn := false, legal := [mB], over := true, chk := false }

/-- A white-to-move position whose only legal move leads to the drawn
position above. -/
def bStart : TB :=
  { core := { placement := [(0, wR), (8, bP)], turn := true, legal := [m08],
              over := false, chk := false },
    hist := [] }

def toyPush2 (b : TB) (_ : Move) : TB := { core := bDrawCore, hist := b.core :: b.hist }

/-- Like toyO, but legal_moves reports the stored move list regardless
of the game-over flag (as the real library does for draw
terminations), and every push reaches the drawn position. -/
def toyO2 : Oracle TB :=
  { toyO with push := toyPush2, legal_moves := fun b => b.core.legal }

def tbDraw1 : TB := { core := bDrawCore, hist := [bStart.core] }

def tbDraw2 : TB := { core := bDrawCore, hist := [bDrawCore, bStart.core] }

def sWin0 : SStateS TB :=
  { gs := { board := bStart, selected_square := none, legal_moves := [] }, game_over := false }

def sWin1 : SStateS TB :=
  { gs := { board := bStart, selected_square := some 0, legal_moves := [m08] },
    game_over := false }

def sWin2 : SStateS TB :=
  { gs := { board := tbDraw1, selected_square := none, legal_moves := [] }, game_over := false }

def sWin3 : SStateS TB :=
  { gs := { board := tbDraw1, selected_square := some 2, legal_moves := [mB] },
    game_over := false }

def sWin4 : SStateS TB :=
  { gs := { board := tbDraw2, selected_square := none, legal_moves := [] }, game_over := false }

/-- C4: counterexample.  In chess_gui_sound.py the run-loop state
sWin2 is reached by two clicks that select the white rook and apply
its move, landing in a terminal drawn position that still has a legal
move; the game_over flag is still false because no frame boundary has
intervened (the clicks sit in one event batch).  With the terminal
outcome present and no reset, a further click changes the selection
state, and the click after it applies the legal move mB, changing the
board — so clicks after the game has ended do mutate the selection and
a move is applied after a terminal outcome without an explicit
reset. -/
theorem terminal_click_window_counterexample :
    ReachS toyO2 sWin2 ∧
    toyO2.is_game_over sWin2.gs.board = true ∧
    sWin2.gs.selected_square = none ∧
    stepClickS toyO2 sWin2 (240, 640) = some sWin3 ∧
    sWin3.gs.selected_square = some 2 ∧
    stepClickS toyO2 sWin3 (240, 480) = some sWin4 ∧
    toyO2.push sWin3.gs.board mB = sWin4.gs.board ∧
    sWin4.gs.board ≠ sWin2.gs.board :=
  ⟨ReachS.click sWin1 (80, 560) sWin2
     (ReachS.click sWin0 (80, 640) sWin1 (ReachS.init bStart) rfl) rfl,
   rfl, rfl, rfl, rfl, rfl, rfl, by decide⟩

theorem find_best_move_greedy_witness :
    ([m08, m01] : List Move) ≠ [] ∧
    (∀ m ∈ [m08, m01], toyO.pop (toyO.push tb1 m) = tb1) ∧
    (∃ m l1 l2, (find_best_move toyO tb1 [m08, m01] 0).2 = some m ∧
      [m08, m01] = l1 ++ m :: l2 ∧
      (if toyO.turn tb1 = true then
        (∀ x ∈ l1, evaluate_board toyO (toyO.push tb1 x) < evaluate_board toyO (toyO.push tb1 m)) ∧
        (∀ x ∈ l2, evaluate_board toyO (toyO.push tb1 x) ≤ evaluate_board toyO (toyO.push tb1 m))
      else
        (∀ x ∈ l1, evaluate_board toyO (toyO.push tb1 m) < evaluate_board toyO (toyO.push tb1 x)) ∧
        (∀ x ∈ l2, evaluate_board toyO (toyO.push tb1 m) ≤ evaluate_board toyO (toyO.push tb1 x)))) :=
  ⟨by decide, by decide, find_best_move_greedy toyO tb1 [m08, m01] 0 (by decide) (by decide)⟩

theorem find_best_move_in_legal_moves_witness :
    ([m01, m08] : List Move).Perm (toyO.legal_moves tb1) ∧
    (∃ m, (find_best_move toyO tb1 [m01, m08] 0).2 = some m ∧ m ∈ toyO.legal_moves tb1) :=
  ⟨by decide,
   (find_best_move_in_legal_moves toyO tb1 [m01, m08] 0 (by decide)).1 (by decide)⟩

theorem find_best_move_preserves_board_witness :
    (∀ m ∈ [m08, m01], toyO.pop (toyO.push tb1 m) = tb1) ∧
    (find_best_move toyO tb1 [m08, m01] 0).1 = tb1 ∧
    toyO.piece_at (find_best_move toyO tb1 [m08, m01] 0).1 8 = toyO.piece_at tb1 8 ∧
    toyO.legal_moves (find_best_move toyO tb1 [m08, m01] 0).1 = toyO.legal_moves tb1 :=
  ⟨by decide,
   (find_best_move_preserves_board toyO tb1 [m08, m01] 0 (by decide)).1,
   (find_best_move_preserves_board toyO tb1 [m08, m01] 0 (by decide)).2.1 8,
   (find_best_move_preserves_board toyO tb1 [m08, m01] 0 (by decide)).2.2⟩

theorem clicks_ignored_when_inactive_amended_witness :
    handle_clickA toyO g0over (200, 200) = some (g0over, none) ∧
    g0over.ai_is_thinking = false ∧
    stepClickS toyO sOver (200, 200) = some sOver ∧
    (frameEndS toyO sOverPre).game_over = true :=
  ⟨(clicks_ignored_when_inactive_amended toyO).1 g0over (200, 200) (Or.inr (Or.inl rfl)),
   ((clicks_ignored_when_inactive_amended toyO).2.2.1 g0over (ReachA.init tbOver) rfl).1,
   (clicks_ignored_when_inactive_amended toyO).2.1 sOver (200, 200) rfl,
   ((clicks_ignored_when_inactive_amended toyO).2.2.2 sOverPre rfl).1⟩

theorem pawn_promotion_auto_queen_witness :
    handle_clickA toyO gPr (40, 40) =
      some (applyStateA toyO gPr mq, some (classifySound toyO tb2 mq)) ∧
    handle_clickS toyO gPrS (80, 80) =
      some (applyStateS toyO gPrS mq, some (classifySound toyO tb2 mq)) :=
  ⟨(pawn_promotion_auto_queen toyO).1 gPr (40, 40) 48 wP (by decide) (by decide) rfl rfl rfl
     rfl (by decide) (by decide),
   (pawn_promotion_auto_queen toyO).2 gPrS (80, 80) 48 wP (by decide) rfl rfl rfl
     rfl (by decide) (by decide)⟩

theorem move_sound_classification_witness :
    (∃ m, (find_best_move toyO tb1 [m08, m01] 0).2 = some m ∧
      make_ai_move toyO tb1 [m08, m01] 0 = some (toyO.push tb1 m, classifySound toyO tb1 m)) ∧
    classifySound toyO tb1 m08 =
      (if toyO.is_check (toyO.push tb1 m08) = true then Sound.check
       else if toyO.is_capture tb1 m08 = true then Sound.capture
       else Sound.quiet) :=
  ⟨(move_sound_classification toyO).2.2.1 tb1 [m08, m01] 0 (by decide) (by decide),
   (move_sound_classification toyO).1 tb1 m08⟩

theorem selection_cache_invariant_witness :
    ((gSel.selected_square = none ∧ gSel.legal_moves = []) ∨
      (∃ sel, gSel.selected_square = some sel ∧
        gSel.legal_moves =
          (toyO.legal_moves gSel.board).filter (fun m => decide (m.from_square = sel)))) ∧
    handle_clickA toyO gSel (0, 0) = some (clearSelA gSel, none) :=
  ⟨(selection_cache_invariant toyO).1 gSel reach_gSel,
   (selection_cache_invariant toyO).2.2.1 gSel (0, 0) (by decide) (by decide)⟩

theorem evaluate_board_material_sum_witness :
    evaluate_board toyO tb1 =
      ∑ sq ∈ Finset.range 64,
        (match toyO.piece_at tb1 sq with
         | some p => (if p.color then (1 : Int) else -1) * PIECE_VALUES p.ptype
         | none => 0) :=
  (evaluate_board_material_sum toyO tb1).1

theorem selected_piece_deref_safe_witness :
    (handle_clickA toyO gSel (40, 40)).isSome = true :=
  ((selected_piece_deref_safe toyO).1 gSel reach_gSel).2 (40, 40)

theorem promotion_tests_equivalent_witness :
    resultsAgree (clickSelectedA toyO gA10 8 0) (clickSelectedS toyO gS10 8 0) :=
  promotion_tests_equivalent toyO gA10 gS10 8 0 wP rfl rfl rfl
    (fun _ _ => by decide) (fun _ _ => by decide)

end Chess
